import Mathlib

/-!
Verification of the time-series alignment core of the grapher repository
(`src/components/SecondScreen.tsx`, `src/api/binance.ts`, `src/types/index.ts`).

The embedding below translates the data model and the four operations the
claims are about — `findNearestPrice`, the crypto range-cache update
`fetchCrypto`, the selection handler `handleBetToggle`, and the row builder
`chartData` — into pure Lean functions.  Timestamps are integers (seconds),
prices are rationals, JavaScript `Map`/`Set` state is modelled by functions
into `Option`, and the asynchronous fetch collaborators are modelled by
explicit functions returning `Except`: an `Except.error` models a rejected
promise.  Each model returns, besides the new state, the list of fetch
requests it issued, so that claims about "how many fetches happen" are
statable.
-/

/-- One observed price sample, the `PricePoint` of `src/types/index.ts`:
`t` is a Unix timestamp in seconds, `p` the price (JS numbers are modelled
as exact rationals). -/
structure PricePoint where
  t : Int
  p : Rat
deriving DecidableEq

instance : Inhabited PricePoint := ⟨⟨0, 0⟩⟩

/-- Comparison by timestamp, the `(a, b) => a.t - b.t` sort comparator. -/
def leByT (a b : PricePoint) : Prop := a.t ≤ b.t

/-- Strict comparison by timestamp. -/
def ltByT (a b : PricePoint) : Prop := a.t < b.t

instance : DecidableRel leByT := fun a b => Int.decLe a.t b.t
instance : DecidableRel ltByT := fun a b => Int.decLt a.t b.t
instance : IsTotal PricePoint leByT := ⟨fun a b => Int.le_total a.t b.t⟩
instance : IsTrans PricePoint leByT := ⟨fun _ _ _ => Int.le_trans⟩
instance : IsTrans PricePoint ltByT := ⟨fun _ _ _ => Int.lt_trans⟩

/-- A series sorted ascending by timestamp. -/
def SortedByT (l : List PricePoint) : Prop := l.Pairwise leByT

/-- A series sorted ascending by timestamp with no duplicate timestamps. -/
def StrictSortedByT (l : List PricePoint) : Prop := l.Pairwise ltByT

instance (l : List PricePoint) : Decidable (SortedByT l) :=
  inferInstanceAs (Decidable (l.Pairwise leByT))

instance (l : List PricePoint) : Decidable (StrictSortedByT l) :=
  inferInstanceAs (Decidable (l.Pairwise ltByT))

/-- Array indexing `history[i]`; out-of-range reads (which the algorithms
below never perform) yield a default sample. -/
def getP (history : List PricePoint) (i : Nat) : PricePoint :=
  history.getD i ⟨0, 0⟩

/-- The `while (left < right)` binary-search loop of `findNearestPrice`
(src/components/SecondScreen.tsx, lines 53-60).  The loop shrinks
`right - left` by at least one per iteration, so running it with any fuel
`≥ right - left` computes the loop's result; `insertionPoint` supplies
`history.length`, and `bsearchGo_fuel_irrel` below shows the result does not
depend on the fuel once it is adequate, so this models the loop exactly. -/
def bsearchGo (history : List PricePoint) (targetTimestamp : Int) :
    Nat → Nat → Nat → Nat
  | 0, left, _ => left
  | fuel + 1, left, right =>
    if left < right then
      let mid := (left + right) / 2
      if (getP history mid).t < targetTimestamp then
        bsearchGo history targetTimestamp fuel (mid + 1) right
      else
        bsearchGo history targetTimestamp fuel left mid
    else
      left

/-- The insertion point of `targetTimestamp` computed by the binary search of
`findNearestPrice`. -/
def insertionPoint (history : List PricePoint) (targetTimestamp : Int) : Nat :=
  bsearchGo history targetTimestamp history.length 0 history.length

/-- The candidate list of `findNearestPrice` (lines 62-65): the element at
the insertion point, then the element immediately before it, when present. -/
def nearCandidates (history : List PricePoint) (left : Nat) : List PricePoint :=
  (if left < history.length then [getP history left] else []) ++
  (if 0 < left then [getP history (left - 1)] else [])

/-- One step of the candidate scan (lines 70-76): a candidate is taken when
its delta is strictly below the current minimum (`none` models the initial
`Infinity`) and within tolerance. -/
def scanStep (targetTimestamp maxDeltaSeconds : Int)
    (acc : Option PricePoint × Option Int) (point : PricePoint) :
    Option PricePoint × Option Int :=
  let delta := |point.t - targetTimestamp|
  match acc.2 with
  | some minDelta =>
    if delta < minDelta ∧ delta ≤ maxDeltaSeconds then (some point, some delta)
    else acc
  | none =>
    if delta ≤ maxDeltaSeconds then (some point, some delta)
    else acc

/-- The candidate scan of `findNearestPrice`: `nearest` starts as `null`,
`minDelta` as `Infinity`. -/
def pickNearest (targetTimestamp maxDeltaSeconds : Int)
    (candidates : List PricePoint) : Option PricePoint :=
  (candidates.foldl (scanStep targetTimestamp maxDeltaSeconds) (none, none)).1

/-- `findNearestPrice` from `src/components/SecondScreen.tsx` (lines 42-79);
`none` models the `null` return, the default tolerance is 270 seconds. -/
def findNearestPrice (history : List PricePoint) (targetTimestamp : Int)
    (maxDeltaSeconds : Int := 270) : Option Rat :=
  if history.length = 0 then none
  else
    (pickNearest targetTimestamp maxDeltaSeconds
      (nearCandidates history (insertionPoint history targetTimestamp))).map
      (fun nearest => nearest.p)

/-- The `CryptoOption` union of `src/types/index.ts`. -/
inductive CryptoOption where
  | BTC
  | ETH
  | SOL
  | NONE
deriving DecidableEq

/-- String rendering of a `CryptoOption`, used in error messages. -/
def cryptoName : CryptoOption → String
  | .BTC => "BTC"
  | .ETH => "ETH"
  | .SOL => "SOL"
  | .NONE => "NONE"

/-- The `cryptoCacheRef.current` record (lines 101-105): which crypto the
cached range belongs to and its covered bounds. -/
structure CryptoCache where
  crypto : CryptoOption
  min : Int
  max : Int
deriving DecidableEq

/-- The state mutated by `fetchCrypto`: the cache record (`none` models a
`null` ref) and the `cryptoPrices` React state. -/
structure CryptoState where
  cache : Option CryptoCache
  cryptoPrices : List PricePoint
deriving DecidableEq

/-- Result of one `fetchCrypto` run: the new state, the list of
`(startTime, endTime)` ranges passed to `fetchCryptoPriceHistory`, in order,
and the surfaced error, if any. -/
structure FetchOutcome where
  state : CryptoState
  fetched : List (Int × Int)
  error : Option String
deriving DecidableEq

/-- The stable ascending sort by `t` (`.sort((a, b) => a.t - b.t)`),
modelled by insertion sort. -/
def sortByT (l : List PricePoint) : List PricePoint :=
  List.insertionSort leByT l

/-- Tail of the duplicate-timestamp filter (lines 257-259): an element is
kept iff its timestamp differs from its predecessor's in the input list. -/
def dedupGo (prev : PricePoint) : List PricePoint → List PricePoint
  | [] => []
  | point :: rest =>
    (if point.t ≠ prev.t then [point] else []) ++ dedupGo point rest

/-- The duplicate-timestamp filter
`allPrices.filter((price, index, arr) => index === 0 || price.t !== arr[index - 1].t)`. -/
def dedupByT : List PricePoint → List PricePoint
  | [] => []
  | point :: rest => point :: dedupGo point rest

/-- The delta sub-ranges computed against cached coverage (lines 228-238). -/
def deltaRanges (cache : CryptoCache) (tmin tmax : Int) : List (Int × Int) :=
  (if tmin < cache.min then [(tmin, cache.min)] else []) ++
  (if tmax > cache.max then [(cache.max, tmax)] else [])

/-- The error message `Failed to fetch ${crypto} price data`. -/
def cryptoErrorMsg (crypto : CryptoOption) : String :=
  "Failed to fetch " ++ cryptoName crypto ++ " price data"

/-- One run of the `fetchCrypto` body (lines 195-273).  `fetch` models
`fetchCryptoPriceHistory`; `Promise.all` over the delta ranges is modelled by
`mapM` in `Except` (any rejected fetch rejects the whole batch, and no
partial result is committed, exactly as the `catch` block does). -/
def fetchCrypto
    (fetch : CryptoOption → Int → Int → Except String (List PricePoint))
    (crypto : CryptoOption) (tmin tmax : Int) (st : CryptoState) :
    FetchOutcome :=
  let fullFetch : FetchOutcome :=
    match fetch crypto tmin tmax with
    | .ok prices => ⟨⟨some ⟨crypto, tmin, tmax⟩, prices⟩, [(tmin, tmax)], none⟩
    | .error _ => ⟨st, [(tmin, tmax)], some (cryptoErrorMsg crypto)⟩
  match st.cache with
  | none => fullFetch
  | some cache =>
    if cache.crypto ≠ crypto ∨ st.cryptoPrices.length = 0 then
      fullFetch
    else if tmin ≥ cache.min ∧ tmax ≤ cache.max then
      ⟨st, [], none⟩
    else
      let fetchRanges := deltaRanges cache tmin tmax
      if fetchRanges.length = 0 then
        ⟨st, [], none⟩
      else
        match fetchRanges.mapM (fun range => fetch crypto range.1 range.2) with
        | .ok newPricesArrays =>
          let allPrices := st.cryptoPrices ++ newPricesArrays.flatten
          let dedupedPrices := dedupByT (sortByT allPrices)
          ⟨⟨some ⟨crypto, min tmin cache.min, max tmax cache.max⟩, dedupedPrices⟩,
            fetchRanges, none⟩
        | .error _ => ⟨st, fetchRanges, some (cryptoErrorMsg crypto)⟩

/-- The `'YES' | 'NO'` bet side. -/
inductive BetType where
  | YES
  | NO
deriving DecidableEq

/-- String rendering of a bet side. -/
def betTypeStr : BetType → String
  | .YES => "YES"
  | .NO => "NO"

/-- `generateBetKey` from `src/components/SecondScreen.tsx` (lines 38-40). -/
def generateBetKey (marketId : String) (type : BetType) : String :=
  marketId ++ "-" ++ betTypeStr type

/-- The fields of `ParsedMarket` used by `handleBetToggle`. -/
structure ParsedMarket where
  id : String
  question : String
  groupItemTitle : String
  startDate : Int
  yesTokenId : String
  noTokenId : String
deriving DecidableEq

/-- The `SelectedBet` record of `src/types/index.ts`. -/
structure SelectedBet where
  marketId : String
  question : String
  groupItemTitle : String
  startDate : Int
  type : BetType
  tokenId : String
deriving DecidableEq

/-- The `PriceHistory` payload of `fetchPriceHistory`. -/
structure PriceHistoryRec where
  history : List PricePoint
deriving DecidableEq

/-- The component state touched by `handleBetToggle`: `selectedBets`,
`priceHistories` (JS `Map`s as functions into `Option`), `loadingBets`
(a `Set` as a characteristic function) and the `error` banner. -/
structure BetState where
  selectedBets : String → Option SelectedBet
  priceHistories : String → Option (List PricePoint)
  loadingBets : String → Bool
  error : Option String

/-- Result of one `handleBetToggle` run: the new state and the token ids for
which a `fetchPriceHistory` call was issued. -/
structure ToggleOutcome where
  state : BetState
  fetchedTokens : List String

/-- The token id used for a toggle, `type === 'YES' ? yesTokenId : noTokenId`. -/
def betTokenId (market : ParsedMarket) : BetType → String
  | .YES => market.yesTokenId
  | .NO => market.noTokenId

/-- The error message
`Failed to fetch price history for ${market.question} (${type})`. -/
def betErrorMsg (question : String) (type : BetType) : String :=
  "Failed to fetch price history for " ++ question ++ " (" ++
    betTypeStr type ++ ")"

/-- The optimistic toggle of lines 112-127: delete the key when present,
otherwise insert the new `SelectedBet`. -/
def toggleBet (market : ParsedMarket) (type : BetType)
    (betKey tokenId : String) (m : String → Option SelectedBet) :
    String → Option SelectedBet :=
  match m betKey with
  | some _ => fun k => if k = betKey then none else m k
  | none => fun k =>
      if k = betKey then
        some ⟨market.id, market.question, market.groupItemTitle,
          market.startDate, type, tokenId⟩
      else m k

/-- One run of `handleBetToggle` (lines 107-163).  `fetchPH` models
`fetchPriceHistory(tokenId, startTs, fidelity)`.  The fetch happens only when
the key was not selected and has no stored history (line 130, read from the
pre-toggle closure state); on failure the key is rolled back out of the
selection and an error naming the market is surfaced. -/
def handleBetToggle
    (fetchPH : String → String → Nat → Except String PriceHistoryRec)
    (market : ParsedMarket) (type : BetType) (st : BetState) : ToggleOutcome :=
  let betKey := generateBetKey market.id type
  let tokenId := betTokenId market type
  let st1 : BetState :=
    { st with selectedBets := toggleBet market type betKey tokenId st.selectedBets }
  if (st.selectedBets betKey).isNone ∧ (st.priceHistories betKey).isNone then
    let st2 : BetState :=
      { st1 with
        loadingBets := fun k => if k = betKey then true else st1.loadingBets k
        error := none }
    match fetchPH tokenId (toString market.startDate) 10 with
    | .ok payload =>
      let sortedHistory := sortByT payload.history
      let st3 : BetState :=
        { st2 with priceHistories := fun k =>
            if k = betKey then some sortedHistory else st2.priceHistories k }
      ⟨{ st3 with loadingBets := fun k => if k = betKey then false else st3.loadingBets k },
        [tokenId]⟩
    | .error _ =>
      let st3 : BetState :=
        { st2 with
          error := some (betErrorMsg market.question type)
          selectedBets := fun k => if k = betKey then none else st2.selectedBets k }
      ⟨{ st3 with loadingBets := fun k => if k = betKey then false else st3.loadingBets k },
        [tokenId]⟩
  else
    ⟨st1, []⟩

/-- One aligned row (`ChartDataPoint`): the dynamic per-bet-key entries, the
derived `sum` entry and the crypto entry are kept in separate fields (their
JS object keys come from disjoint families). -/
structure ChartRow where
  timestamp : Int
  vals : String → Option Rat
  sum : Option Rat
  cryptoVal : Option Rat

instance : Inhabited ChartRow := ⟨⟨0, fun _ => none, none, none⟩⟩

/-- Key insertion into the timestamp `Map` (lines 288-290, 298-300): a JS
`Map` keeps the first insertion of a key. -/
def insertTs (seen : List Int) (t : Int) : List Int :=
  if t ∈ seen then seen else seen ++ [t]

/-- The distinct timestamps collected by `chartData` (lines 283-302), in
insertion order. -/
def collectTimestamps (betKeys : List String)
    (priceHistories : String → Option (List PricePoint))
    (crypto : CryptoOption) (cryptoPrices : List PricePoint) : List Int :=
  let fromBets := betKeys.foldl
    (fun seen betKey =>
      match priceHistories betKey with
      | some history => history.foldl (fun s point => insertTs s point.t) seen
      | none => seen) []
  if crypto ≠ CryptoOption.NONE ∧ cryptoPrices.length > 0 then
    cryptoPrices.foldl (fun s point => insertTs s point.t) fromBets
  else fromBets

/-- The sorted timestamp axis
`Array.from(dataMap.keys()).sort((a, b) => a - b)` (line 305). -/
def chartTimestamps (betKeys : List String)
    (priceHistories : String → Option (List PricePoint))
    (crypto : CryptoOption) (cryptoPrices : List PricePoint) : List Int :=
  List.insertionSort (fun a b => a ≤ b)
    (collectTimestamps betKeys priceHistories crypto cryptoPrices)

/-- The nearest value a bet key yields at a timestamp: its stored history, if
any, queried with the primary 270-second tolerance. -/
def nearVal (priceHistories : String → Option (List PricePoint)) (ts : Int)
    (betKey : String) : Option Rat :=
  match priceHistories betKey with
  | some history => findNearestPrice history ts
  | none => none

/-- One iteration of the per-key loop of lines 312-322, accumulating the row
entries, the running `sum` and `validBetsForSum`. -/
def rowStep (priceHistories : String → Option (List PricePoint)) (ts : Int)
    (acc : (String → Option Rat) × Rat × Nat) (betKey : String) :
    (String → Option Rat) × Rat × Nat :=
  match priceHistories betKey with
  | none => acc
  | some history =>
    match findNearestPrice history ts with
    | none => acc
    | some price =>
      (fun k => if k = betKey then some price else acc.1 k,
        acc.2.1 + price, acc.2.2 + 1)

/-- The row built for one timestamp (lines 307-336): per-key nearest values,
`sum` recorded only when there are at least two keys and every key yielded a
value, and the crypto value with its tighter 120-second tolerance. -/
def buildRow (betKeys : List String)
    (priceHistories : String → Option (List PricePoint))
    (crypto : CryptoOption) (cryptoPrices : List PricePoint) (ts : Int) :
    ChartRow :=
  let acc := betKeys.foldl (rowStep priceHistories ts) (fun _ => none, 0, 0)
  { timestamp := ts
    vals := acc.1
    sum :=
      if betKeys.length > 1 ∧ acc.2.2 = betKeys.length then some acc.2.1
      else none
    cryptoVal :=
      if crypto ≠ CryptoOption.NONE ∧ cryptoPrices.length > 0 then
        findNearestPrice cryptoPrices ts 120
      else none }

/-- The `chartData` memo (lines 279-339): one row per distinct observed
timestamp, ascending. -/
def chartData (betKeys : List String)
    (priceHistories : String → Option (List PricePoint))
    (crypto : CryptoOption) (cryptoPrices : List PricePoint) : List ChartRow :=
  (chartTimestamps betKeys priceHistories crypto cryptoPrices).map
    (buildRow betKeys priceHistories crypto cryptoPrices)

/-! ## Concrete fixtures used by the witnesses and counterexamples -/

/-- Fixture series for the nearest-match witnesses. -/
def histW : List PricePoint := [⟨0, 1⟩, ⟨10, 2⟩]

/-- Fixture bet keys for the aligner witnesses. -/
def keysW : List String := ["A", "B"]

/-- Fixture histories A = `{10: 0.3, 20: 0.4}` and B = `{10: 0.6}`, the
spec's own aligner example. -/
def phW : String → Option (List PricePoint) := fun k =>
  if k = "A" then some [⟨10, 3/10⟩, ⟨20, 4/10⟩]
  else if k = "B" then some [⟨10, 6/10⟩]
  else none

/-- Fixture market for the toggle witnesses. -/
def marketW : ParsedMarket :=
  ⟨"m1", "Will it rain", "grp", 100, "tokYes", "tokNo"⟩

/-- Primary-series fetch stub that always fails. -/
def failFetchPH : String → String → Nat → Except String PriceHistoryRec :=
  fun _ _ _ => Except.error ("network down")

/-- Empty component state. -/
def emptyBetState : BetState :=
  ⟨fun _ => none, fun _ => none, fun _ => false, none⟩

/-- Crypto fetch stub returning a fixed one-point series per range. -/
def okFetchCrypto : CryptoOption → Int → Int → Except String (List PricePoint) :=
  fun _ a _ => Except.ok [⟨a + 1, 5⟩]

/-- Crypto fetch stub that always fails. -/
def failFetchCrypto : CryptoOption → Int → Int → Except String (List PricePoint) :=
  fun _ _ _ => Except.error ("boom")

/-- Crypto fetch stub returning an empty series. -/
def emptyFetchCrypto : CryptoOption → Int → Int → Except String (List PricePoint) :=
  fun _ _ _ => Except.ok []

/-- A cached state covering `[100, 200]` for BTC with one stored sample. -/
def cachedStateW : CryptoState :=
  ⟨some ⟨CryptoOption.BTC, 100, 200⟩, [⟨150, 5⟩]⟩

/-- The same coverage record but with an empty stored series. -/
def cachedEmptyStateW : CryptoState :=
  ⟨some ⟨CryptoOption.BTC, 100, 200⟩, []⟩


/-- Component state with a stored history for `marketW`'s YES key. -/
def storedBetState : BetState :=
  ⟨fun _ => none,
   fun k => if k = generateBetKey marketW.id BetType.YES
     then some [⟨10, 1⟩] else none,
   fun _ => false, none⟩

/-! ## Properties of the binary search -/

lemma bsearchGo_succ (history : List PricePoint) (T : Int)
    (fuel left right : Nat) :
    bsearchGo history T (fuel + 1) left right =
      if left < right then
        if (getP history ((left + right) / 2)).t < T then
          bsearchGo history T fuel ((left + right) / 2 + 1) right
        else
          bsearchGo history T fuel left ((left + right) / 2)
      else
        left := rfl

lemma bsearchGo_fuel_irrel (history : List PricePoint) (T : Int) :
    ∀ fuel left right, right - left ≤ fuel →
      bsearchGo history T fuel left right =
        bsearchGo history T (right - left) left right := by
  intro fuel
  induction fuel using Nat.strong_induction_on with
  | _ fuel ih =>
    intro left right hfuel
    match fuel with
    | 0 =>
      have h0 : right - left = 0 := Nat.le_antisymm hfuel (Nat.zero_le _)
      rw [h0]
    | fuel + 1 =>
      by_cases hlr : left < right
      · obtain ⟨k, hk⟩ : ∃ k, right - left = k + 1 :=
          ⟨right - left - 1, by omega⟩
        rw [hk, bsearchGo_succ, bsearchGo_succ, if_pos hlr, if_pos hlr]
        by_cases hmid : (getP history ((left + right) / 2)).t < T
        · rw [if_pos hmid, if_pos hmid]
          have h1 : right - ((left + right) / 2 + 1) ≤ fuel := by omega
          have h2 : right - ((left + right) / 2 + 1) ≤ k := by omega
          by_cases hkfuel : k < fuel + 1
          · rw [ih fuel (Nat.lt_succ_self _) _ _ h1, ih k hkfuel _ _ h2]
          · have hke : k = fuel := by omega
            rw [hke]
        · rw [if_neg hmid, if_neg hmid]
          have h1 : (left + right) / 2 - left ≤ fuel := by omega
          have h2 : (left + right) / 2 - left ≤ k := by omega
          by_cases hkfuel : k < fuel + 1
          · rw [ih fuel (Nat.lt_succ_self _) _ _ h1, ih k hkfuel _ _ h2]
          · have hke : k = fuel := by omega
            rw [hke]
      · have h0 : right - left = 0 := by omega
        rw [h0, bsearchGo_succ, if_neg hlr]
        rfl

lemma bsearchGo_spec (history : List PricePoint) (T : Int) :
    ∀ fuel left right, right - left ≤ fuel → left ≤ right →
      right ≤ history.length →
      (left = 0 ∨ (getP history (left - 1)).t < T) →
      (right = history.length ∨ T ≤ (getP history right).t) →
      left ≤ bsearchGo history T fuel left right ∧
      bsearchGo history T fuel left right ≤ right ∧
      (bsearchGo history T fuel left right = 0 ∨
        (getP history (bsearchGo history T fuel left right - 1)).t < T) ∧
      (bsearchGo history T fuel left right = history.length ∨
        T ≤ (getP history (bsearchGo history T fuel left right)).t) := by
  intro fuel
  induction fuel with
  | zero =>
    intro left right hfuel hlr _ hL hR
    have heq : left = right := by omega
    subst heq
    exact ⟨Nat.le_refl _, Nat.le_refl _, hL, hR⟩
  | succ fuel ih =>
    intro left right hfuel hlr hlen hL hR
    rw [bsearchGo_succ]
    by_cases hlt : left < right
    · rw [if_pos hlt]
      have hmid1 : left ≤ (left + right) / 2 := by omega
      have hmid2 : (left + right) / 2 < right := by omega
      by_cases hmid : (getP history ((left + right) / 2)).t < T
      · rw [if_pos hmid]
        have h := ih ((left + right) / 2 + 1) right (by omega) (by omega) hlen
          (Or.inr (by simpa using hmid)) hR
        exact ⟨by omega, h.2.1, h.2.2.1, h.2.2.2⟩
      · rw [if_neg hmid]
        have h := ih left ((left + right) / 2) (by omega) (by omega) (by omega)
          hL (Or.inr (Int.not_lt.mp hmid))
        exact ⟨h.1, by omega, h.2.2.1, h.2.2.2⟩
    · rw [if_neg hlt]
      have heq : left = right := by omega
      subst heq
      exact ⟨Nat.le_refl _, Nat.le_refl _, hL, hR⟩

lemma insertionPoint_spec (history : List PricePoint) (T : Int) :
    insertionPoint history T ≤ history.length ∧
    (insertionPoint history T = 0 ∨
      (getP history (insertionPoint history T - 1)).t < T) ∧
    (insertionPoint history T = history.length ∨
      T ≤ (getP history (insertionPoint history T)).t) := by
  have h := bsearchGo_spec history T history.length 0 history.length
    (by omega) (Nat.zero_le _) (Nat.le_refl _) (Or.inl rfl) (Or.inl rfl)
  exact ⟨h.2.1, h.2.2.1, h.2.2.2⟩

lemma getP_eq_get {history : List PricePoint} {i : Nat}
    (h : i < history.length) : getP history i = history.get ⟨i, h⟩ := by
  simp [getP, List.getD_eq_getElem?_getD, List.getElem?_eq_getElem h,
    List.get_eq_getElem]

lemma sorted_getP_mono {history : List PricePoint} (hs : SortedByT history)
    {i j : Nat} (hij : i ≤ j) (hj : j < history.length) :
    (getP history i).t ≤ (getP history j).t := by
  rcases Nat.lt_or_ge i j with hlt | hge
  · have hi : i < history.length := Nat.lt_trans hlt hj
    have hp := List.pairwise_iff_get.mp hs ⟨i, hi⟩ ⟨j, hj⟩ hlt
    rw [getP_eq_get hi, getP_eq_get hj]
    exact hp
  · have heq : i = j := Nat.le_antisymm hij hge
    subst heq
    exact le_refl _

lemma lt_insertionPoint_lt {history : List PricePoint} {T : Int}
    (hs : SortedByT history) {i : Nat} (hi : i < insertionPoint history T) :
    (getP history i).t < T := by
  obtain ⟨hle, hL, _⟩ := insertionPoint_spec history T
  rcases hL with h0 | hlt
  · rw [h0] at hi
    exact absurd hi (Nat.not_lt_zero i)
  · have h1 : i ≤ insertionPoint history T - 1 := by omega
    have h2 : insertionPoint history T - 1 < history.length := by omega
    exact lt_of_le_of_lt (sorted_getP_mono hs h1 h2) hlt

lemma insertionPoint_le_t {history : List PricePoint} {T : Int}
    (hs : SortedByT history) {i : Nat} (hl : insertionPoint history T ≤ i)
    (hi : i < history.length) : T ≤ (getP history i).t := by
  obtain ⟨hle, _, hR⟩ := insertionPoint_spec history T
  rcases hR with hlen | hge
  · rw [hlen] at hl
    exact absurd hi (by omega)
  · exact le_trans hge (sorted_getP_mono hs hl hi)

lemma pickNearest_single (T w : Int) (a : PricePoint) :
    pickNearest T w [a] = if |a.t - T| ≤ w then some a else none := by
  by_cases h : |a.t - T| ≤ w
  · simp [pickNearest, scanStep, h]
  · simp [pickNearest, scanStep, h]

lemma pickNearest_pair (T w : Int) (a b : PricePoint) :
    pickNearest T w [a, b] =
      if |a.t - T| ≤ w then
        if |b.t - T| < |a.t - T| ∧ |b.t - T| ≤ w then some b else some a
      else
        if |b.t - T| ≤ w then some b else none := by
  by_cases h1 : |a.t - T| ≤ w
  · by_cases h2 : |b.t - T| < |a.t - T| ∧ |b.t - T| ≤ w
    · simp [pickNearest, scanStep, h1, h2]
    · simp [pickNearest, scanStep, h1, h2]
  · by_cases h2 : |b.t - T| ≤ w
    · simp [pickNearest, scanStep, h1, h2]
    · simp [pickNearest, scanStep, h1, h2]

lemma abs_sub_of_le_t {x T : Int} (h : T ≤ x) : |x - T| = x - T :=
  abs_of_nonneg (by omega)

lemma abs_sub_of_ge_t {x T : Int} (h : x ≤ T) : |x - T| = T - x := by
  rw [abs_of_nonpos (by omega)]
  omega


/-- Claim C1: when `findNearestPrice` returns a value on a series sorted
ascending by `t`, that value is the price of a sample whose timestamp
differs from the target by at most the tolerance, and no sample anywhere in
the series has a strictly smaller absolute timestamp difference to the
target. -/
theorem findNearestPrice_tolerance_minimal
    (history : List PricePoint) (T w : Int) (hs : SortedByT history)
    (v : Rat) (hv : findNearestPrice history T w = some v) :
    ∃ i, i < history.length ∧ (getP history i).p = v ∧
      |(getP history i).t - T| ≤ w ∧
      ∀ j, j < history.length →
        |(getP history i).t - T| ≤ |(getP history j).t - T| := by
  by_cases hlen : history.length = 0
  · rw [findNearestPrice, if_pos hlen] at hv
    exact absurd hv (by simp)
  rw [findNearestPrice, if_neg hlen] at hv
  obtain ⟨hle, _, _⟩ := insertionPoint_spec history T
  by_cases h1 : insertionPoint history T < history.length
  · by_cases h2 : 0 < insertionPoint history T
    · -- two candidates: the insertion point and its predecessor
      have hcand : nearCandidates history (insertionPoint history T) =
          [getP history (insertionPoint history T),
           getP history (insertionPoint history T - 1)] := by
        rw [nearCandidates, if_pos h1, if_pos h2]
        rfl
      rw [hcand, pickNearest_pair] at hv
      have hTa : T ≤ (getP history (insertionPoint history T)).t :=
        insertionPoint_le_t hs (Nat.le_refl _) h1
      have hbT : (getP history (insertionPoint history T - 1)).t < T :=
        lt_insertionPoint_lt hs (by omega)
      have hda : |(getP history (insertionPoint history T)).t - T| =
          (getP history (insertionPoint history T)).t - T :=
        abs_sub_of_le_t hTa
      have hdb : |(getP history (insertionPoint history T - 1)).t - T| =
          T - (getP history (insertionPoint history T - 1)).t :=
        abs_sub_of_ge_t (le_of_lt hbT)
      have hminb : ∀ j, j < history.length →
          |(getP history (insertionPoint history T - 1)).t - T| ≤
            |(getP history j).t - T| ∨
          (|(getP history (insertionPoint history T)).t - T| ≤
            |(getP history j).t - T| ∧ insertionPoint history T ≤ j) := by
        intro j hj
        by_cases hjl : j < insertionPoint history T
        · left
          have hjb : (getP history j).t ≤
              (getP history (insertionPoint history T - 1)).t :=
            sorted_getP_mono hs (by omega) (by omega)
          have hjT : (getP history j).t < T := lt_insertionPoint_lt hs hjl
          rw [hdb, abs_sub_of_ge_t (le_of_lt hjT)]
          omega
        · right
          have haj : (getP history (insertionPoint history T)).t ≤
              (getP history j).t := sorted_getP_mono hs (by omega) hj
          constructor
          · rw [hda, abs_sub_of_le_t (le_trans hTa haj)]
            omega
          · omega
      by_cases hina : |(getP history (insertionPoint history T)).t - T| ≤ w
      · rw [if_pos hina] at hv
        by_cases hinb : |(getP history (insertionPoint history T - 1)).t - T| <
            |(getP history (insertionPoint history T)).t - T| ∧
            |(getP history (insertionPoint history T - 1)).t - T| ≤ w
        · -- the predecessor is strictly nearer and within tolerance
          rw [if_pos hinb] at hv
          simp only [Option.map_some', Option.some.injEq] at hv
          refine ⟨insertionPoint history T - 1, by omega, hv, hinb.2, ?_⟩
          intro j hj
          rcases hminb j hj with h | ⟨h, _⟩
          · exact h
          · exact le_trans (le_of_lt hinb.1) h
        · rw [if_neg hinb] at hv
          simp only [Option.map_some', Option.some.injEq] at hv
          refine ⟨insertionPoint history T, h1, hv, hina, ?_⟩
          -- here the insertion-point delta is minimal among the candidates
          have hab : |(getP history (insertionPoint history T)).t - T| ≤
              |(getP history (insertionPoint history T - 1)).t - T| := by
            by_contra hcon
            exact hinb ⟨by omega, by omega⟩
          intro j hj
          rcases hminb j hj with h | ⟨h, _⟩
          · exact le_trans hab h
          · exact h
      · rw [if_neg hina] at hv
        by_cases hinb : |(getP history (insertionPoint history T - 1)).t - T| ≤ w
        · rw [if_pos hinb] at hv
          simp only [Option.map_some', Option.some.injEq] at hv
          refine ⟨insertionPoint history T - 1, by omega, hv, hinb, ?_⟩
          intro j hj
          rcases hminb j hj with h | ⟨h, hjge⟩
          · exact h
          · -- deltas at or after the insertion point exceed the tolerance
            have hba : |(getP history (insertionPoint history T - 1)).t - T| ≤
                |(getP history (insertionPoint history T)).t - T| := by omega
            exact le_trans hba h
        · rw [if_neg hinb] at hv
          exact absurd hv (by simp)
    · -- the insertion point is 0: single candidate `history[0]`
      have hcand : nearCandidates history (insertionPoint history T) =
          [getP history (insertionPoint history T)] := by
        rw [nearCandidates, if_pos h1, if_neg h2]
        rfl
      rw [hcand, pickNearest_single] at hv
      by_cases hina : |(getP history (insertionPoint history T)).t - T| ≤ w
      · rw [if_pos hina] at hv
        simp only [Option.map_some', Option.some.injEq] at hv
        refine ⟨insertionPoint history T, h1, hv, hina, ?_⟩
        intro j hj
        have hTj : T ≤ (getP history j).t :=
          insertionPoint_le_t hs (by omega) hj
        have haj : (getP history (insertionPoint history T)).t ≤
            (getP history j).t := sorted_getP_mono hs (by omega) hj
        rw [abs_sub_of_le_t (insertionPoint_le_t hs (Nat.le_refl _) h1),
          abs_sub_of_le_t hTj]
        omega
      · rw [if_neg hina] at hv
        exact absurd hv (by simp)
  · -- the insertion point is the length: single candidate, the last element
    have hleq : insertionPoint history T = history.length := by omega
    have h2 : 0 < insertionPoint history T := by omega
    have hcand : nearCandidates history (insertionPoint history T) =
        [getP history (insertionPoint history T - 1)] := by
      rw [nearCandidates, if_neg h1, if_pos h2]
      rfl
    rw [hcand, pickNearest_single] at hv
    by_cases hinb : |(getP history (insertionPoint history T - 1)).t - T| ≤ w
    · rw [if_pos hinb] at hv
      simp only [Option.map_some', Option.some.injEq] at hv
      refine ⟨insertionPoint history T - 1, by omega, hv, hinb, ?_⟩
      intro j hj
      have hjT : (getP history j).t < T := lt_insertionPoint_lt hs (by omega)
      have hjb : (getP history j).t ≤
          (getP history (insertionPoint history T - 1)).t :=
        sorted_getP_mono hs (by omega) (by omega)
      rw [abs_sub_of_ge_t (le_of_lt (lt_insertionPoint_lt hs (by omega))),
        abs_sub_of_ge_t (le_of_lt hjT)]
      omega
    · rw [if_neg hinb] at hv
      exact absurd hv (by simp)

/-- Claim C1 witness: on the concrete sorted series `[(0, 1), (10, 2)]` with
target 3 and tolerance 270, `findNearestPrice` returns `1`, and that value
satisfies the tolerance-and-minimality property. -/
theorem findNearestPrice_tolerance_minimal_witness :
    SortedByT histW ∧ findNearestPrice histW 3 270 = some 1 ∧
    ∃ i, i < histW.length ∧ (getP histW i).p = 1 ∧
      |(getP histW i).t - 3| ≤ 270 ∧
      ∀ j, j < histW.length →
        |(getP histW i).t - 3| ≤ |(getP histW j).t - 3| :=
  ⟨by decide, by with_unfolding_all decide,
    findNearestPrice_tolerance_minimal histW 3 270 (by decide) 1
      (by with_unfolding_all decide)⟩

/-- Claim C10: on a sorted series, when the sample at the insertion point and
the one immediately before it are exactly equidistant from the target and
both within tolerance, `findNearestPrice` returns the price of the later
sample — the one at the insertion point, whose timestamp is at least the
target — because the scan uses a strict `<` on the delta and examines that
candidate first. -/
theorem findNearestPrice_tie_returns_later
    (history : List PricePoint) (T w : Int) (hs : SortedByT history)
    (hl0 : 0 < insertionPoint history T)
    (hllen : insertionPoint history T < history.length)
    (heq : |(getP history (insertionPoint history T)).t - T| =
      |(getP history (insertionPoint history T - 1)).t - T|)
    (hw : |(getP history (insertionPoint history T)).t - T| ≤ w) :
    findNearestPrice history T w =
      some (getP history (insertionPoint history T)).p ∧
    T ≤ (getP history (insertionPoint history T)).t := by
  have hTa : T ≤ (getP history (insertionPoint history T)).t :=
    insertionPoint_le_t hs (Nat.le_refl _) hllen
  have hlen : ¬ history.length = 0 := by omega
  rw [findNearestPrice, if_neg hlen]
  have hcand : nearCandidates history (insertionPoint history T) =
      [getP history (insertionPoint history T),
       getP history (insertionPoint history T - 1)] := by
    rw [nearCandidates, if_pos hllen, if_pos hl0]
    rfl
  have hne : ¬ (|(getP history (insertionPoint history T - 1)).t - T| <
      |(getP history (insertionPoint history T)).t - T| ∧
      |(getP history (insertionPoint history T - 1)).t - T| ≤ w) := by
    intro hc
    rw [heq] at hc
    exact lt_irrefl _ hc.1
  rw [hcand, pickNearest_pair, if_pos hw, if_neg hne]
  exact ⟨rfl, hTa⟩

/-- Claim C10 witness: on `[(0, 1), (10, 2)]` with target 5 both samples are
at delta 5; the result is the later sample's price `2`. -/
theorem findNearestPrice_tie_returns_later_witness :
    0 < insertionPoint histW 5 ∧ insertionPoint histW 5 < histW.length ∧
    findNearestPrice histW 5 270 = some (getP histW (insertionPoint histW 5)).p ∧
    5 ≤ (getP histW (insertionPoint histW 5)).t :=
  have h := findNearestPrice_tie_returns_later histW 5 270 (by decide)
    (by decide) (by decide) (by decide) (by decide)
  ⟨by decide, by decide, h.1, h.2⟩

/-! ## Properties of the range cache -/

lemma sortByT_sorted (l : List PricePoint) : SortedByT (sortByT l) :=
  List.sorted_insertionSort leByT l

lemma dedupGo_chain (l : List PricePoint) :
    ∀ prev, List.Chain' leByT (prev :: l) →
      List.Chain' ltByT (prev :: dedupGo prev l) := by
  induction l with
  | nil =>
    intro prev _
    simp [dedupGo]
  | cons b rest ih =>
    intro prev h
    rw [List.chain'_cons] at h
    have h1 : prev.t ≤ b.t := h.1
    by_cases hbt : b.t ≠ prev.t
    · have hchain := ih b h.2
      have hgoal : List.Chain' ltByT (prev :: b :: dedupGo b rest) := by
        rw [List.chain'_cons]
        exact ⟨show prev.t < b.t by omega, hchain⟩
      rw [dedupGo, if_pos hbt]
      exact hgoal
    · have hpt : b.t = prev.t := not_not.mp hbt
      have hchain := ih b h.2
      rw [dedupGo, if_neg hbt]
      cases hgo : dedupGo b rest with
      | nil => simp
      | cons c cs =>
        rw [hgo] at hchain
        rw [List.nil_append, List.chain'_cons]
        rw [List.chain'_cons] at hchain
        have hbc : b.t < c.t := hchain.1
        exact ⟨show prev.t < c.t by omega, hchain.2⟩

lemma strictSorted_dedup_sort (l : List PricePoint) :
    StrictSortedByT (dedupByT (sortByT l)) := by
  have hs : List.Chain' leByT (sortByT l) :=
    List.chain'_iff_pairwise.mpr (sortByT_sorted l)
  cases hsl : sortByT l with
  | nil => simp [dedupByT, StrictSortedByT]
  | cons a rest =>
    rw [hsl] at hs
    exact List.chain'_iff_pairwise.mp (dedupGo_chain rest a hs)

lemma deltaRanges_ne_nil {cache : CryptoCache} {tmin tmax : Int}
    (h : ¬ (tmin ≥ cache.min ∧ tmax ≤ cache.max)) :
    ¬ (deltaRanges cache tmin tmax).length = 0 := by
  rw [deltaRanges]
  by_cases h1 : tmin < cache.min
  · rw [if_pos h1]
    simp
  · have h2 : tmax > cache.max := by omega
    rw [if_neg h1, if_pos h2]
    simp

lemma fetchCrypto_cache_none
    (fetch : CryptoOption → Int → Int → Except String (List PricePoint))
    (crypto : CryptoOption) (tmin tmax : Int) (st : CryptoState)
    (hc : st.cache = none) :
    fetchCrypto fetch crypto tmin tmax st =
      match fetch crypto tmin tmax with
      | .ok prices =>
        ⟨⟨some ⟨crypto, tmin, tmax⟩, prices⟩, [(tmin, tmax)], none⟩
      | .error _ => ⟨st, [(tmin, tmax)], some (cryptoErrorMsg crypto)⟩ := by
  unfold fetchCrypto
  rw [hc]

lemma fetchCrypto_cache_some
    (fetch : CryptoOption → Int → Int → Except String (List PricePoint))
    (crypto : CryptoOption) (tmin tmax : Int) (st : CryptoState)
    (cache : CryptoCache) (hc : st.cache = some cache) :
    fetchCrypto fetch crypto tmin tmax st =
      (if cache.crypto ≠ crypto ∨ st.cryptoPrices.length = 0 then
        match fetch crypto tmin tmax with
        | .ok prices =>
          ⟨⟨some ⟨crypto, tmin, tmax⟩, prices⟩, [(tmin, tmax)], none⟩
        | .error _ => ⟨st, [(tmin, tmax)], some (cryptoErrorMsg crypto)⟩
      else if tmin ≥ cache.min ∧ tmax ≤ cache.max then
        ⟨st, [], none⟩
      else if (deltaRanges cache tmin tmax).length = 0 then
        ⟨st, [], none⟩
      else
        match (deltaRanges cache tmin tmax).mapM
            (fun range => fetch crypto range.1 range.2) with
        | .ok newPricesArrays =>
          ⟨⟨some ⟨crypto, min tmin cache.min, max tmax cache.max⟩,
            dedupByT (sortByT (st.cryptoPrices ++ newPricesArrays.flatten))⟩,
            deltaRanges cache tmin tmax, none⟩
        | .error _ =>
          ⟨st, deltaRanges cache tmin tmax, some (cryptoErrorMsg crypto)⟩ :
        FetchOutcome) := by
  unfold fetchCrypto
  rw [hc]

lemma fetchCrypto_success_cache
    (fetch : CryptoOption → Int → Int → Except String (List PricePoint))
    (crypto : CryptoOption) (tmin tmax : Int) (st : CryptoState)
    (herr : (fetchCrypto fetch crypto tmin tmax st).error = none) :
    ∃ cache1, (fetchCrypto fetch crypto tmin tmax st).state.cache = some cache1 ∧
      cache1.crypto = crypto ∧ cache1.min ≤ tmin ∧ tmax ≤ cache1.max := by
  rcases hc : st.cache with _ | cache
  · rw [fetchCrypto_cache_none fetch crypto tmin tmax st hc] at herr ⊢
    rcases hf : fetch crypto tmin tmax with e | l
    · rw [hf] at herr
      exact absurd herr (by simp)
    · exact ⟨⟨crypto, tmin, tmax⟩, rfl, rfl, le_refl _, le_refl _⟩
  · rw [fetchCrypto_cache_some fetch crypto tmin tmax st cache hc] at herr ⊢
    by_cases hcond : cache.crypto ≠ crypto ∨ st.cryptoPrices.length = 0
    · rw [if_pos hcond] at herr ⊢
      rcases hf : fetch crypto tmin tmax with e | l
      · rw [hf] at herr
        exact absurd herr (by simp)
      · exact ⟨⟨crypto, tmin, tmax⟩, rfl, rfl, le_refl _, le_refl _⟩
    · have hcc : cache.crypto = crypto := by
        by_contra hne
        exact hcond (Or.inl hne)
      rw [if_neg hcond] at herr ⊢
      by_cases hcov : tmin ≥ cache.min ∧ tmax ≤ cache.max
      · rw [if_pos hcov]
        exact ⟨cache, hc, hcc, hcov.1, hcov.2⟩
      · rw [if_neg hcov, if_neg (deltaRanges_ne_nil hcov)] at herr ⊢
        rcases hm : (deltaRanges cache tmin tmax).mapM
            (fun range => fetch crypto range.1 range.2) with e | arrays
        · rw [hm] at herr
          exact absurd herr (by simp)
        · rw [hm]
          exact ⟨⟨crypto, min tmin cache.min, max tmax cache.max⟩, rfl, rfl,
            min_le_left _ _, le_max_left _ _⟩

/-- Claim C6: when the requested kind differs from the cached kind, or no
coverage exists yet, `fetchCrypto` fetches the entire requested interval in
one logical fetch, replaces the stored series with exactly the freshly
fetched result (sorted when the collaborator returns it sorted, which
`fetchCryptoPriceHistory` does), sets the covered bounds to the requested
bounds, and reuses none of the data cached under the previous kind. -/
theorem fetchCrypto_kind_change_full_fetch
    (fetch : CryptoOption → Int → Int → Except String (List PricePoint))
    (crypto : CryptoOption) (tmin tmax : Int) (st : CryptoState)
    (l : List PricePoint)
    (hkind : st.cache = none ∨
      ∃ cache, st.cache = some cache ∧ cache.crypto ≠ crypto)
    (hok : fetch crypto tmin tmax = Except.ok l) (hl : SortedByT l) :
    fetchCrypto fetch crypto tmin tmax st =
      ⟨⟨some ⟨crypto, tmin, tmax⟩, l⟩, [(tmin, tmax)], none⟩ ∧
    SortedByT (fetchCrypto fetch crypto tmin tmax st).state.cryptoPrices := by
  have heq : fetchCrypto fetch crypto tmin tmax st =
      ⟨⟨some ⟨crypto, tmin, tmax⟩, l⟩, [(tmin, tmax)], none⟩ := by
    rcases hkind with hnone | ⟨cache, hsome, hnec⟩
    · rw [fetchCrypto_cache_none fetch crypto tmin tmax st hnone, hok]
    · rw [fetchCrypto_cache_some fetch crypto tmin tmax st cache hsome,
        if_pos (Or.inl hnec), hok]
  refine ⟨heq, ?_⟩
  rw [heq]
  exact hl

/-- Claim C6 witness: switching from cached BTC coverage to ETH performs the
single full fetch `[(0, 10)]` and installs exactly the fetched series. -/
theorem fetchCrypto_kind_change_full_fetch_witness :
    cachedStateW.cache = some ⟨CryptoOption.BTC, 100, 200⟩ ∧
    CryptoOption.BTC ≠ CryptoOption.ETH ∧
    okFetchCrypto CryptoOption.ETH 0 10 = Except.ok [⟨1, 5⟩] ∧
    fetchCrypto okFetchCrypto CryptoOption.ETH 0 10 cachedStateW =
      ⟨⟨some ⟨CryptoOption.ETH, 0, 10⟩, [⟨1, 5⟩]⟩, [(0, 10)], none⟩ :=
  have h := fetchCrypto_kind_change_full_fetch okFetchCrypto
    CryptoOption.ETH 0 10 cachedStateW [⟨1, 5⟩]
    (Or.inr ⟨⟨CryptoOption.BTC, 100, 200⟩, rfl, by decide⟩)
    rfl (by decide)
  ⟨rfl, by decide, rfl, h.1⟩

/-- Claim C2 (amended): with cached coverage `[100, 200]` for the current
kind and a non-empty stored series, a request for `[50, 250]` performs
exactly the two delta fetches `[50, 100]` and `[200, 250]`; when both
succeed the covered interval becomes exactly `[50, 250]` and the stored
series is sorted ascending by `t` with no duplicate timestamps. -/
theorem fetchCrypto_two_delta_fetches
    (fetch : CryptoOption → Int → Int → Except String (List PricePoint))
    (crypto : CryptoOption) (st : CryptoState) (l1 l2 : List PricePoint)
    (hcache : st.cache = some ⟨crypto, 100, 200⟩)
    (hne : ¬ st.cryptoPrices.length = 0)
    (h1 : fetch crypto 50 100 = Except.ok l1)
    (h2 : fetch crypto 200 250 = Except.ok l2) :
    (fetchCrypto fetch crypto 50 250 st).fetched = [(50, 100), (200, 250)] ∧
    (fetchCrypto fetch crypto 50 250 st).error = none ∧
    (fetchCrypto fetch crypto 50 250 st).state.cache =
      some ⟨crypto, 50, 250⟩ ∧
    StrictSortedByT (fetchCrypto fetch crypto 50 250 st).state.cryptoPrices := by
  have hcond : ¬ ((⟨crypto, 100, 200⟩ : CryptoCache).crypto ≠ crypto ∨
      st.cryptoPrices.length = 0) := by
    intro h
    rcases h with h | h
    · exact h rfl
    · exact hne h
  have hcov : ¬ ((50 : Int) ≥ (⟨crypto, 100, 200⟩ : CryptoCache).min ∧
      (250 : Int) ≤ (⟨crypto, 100, 200⟩ : CryptoCache).max) := by
    intro h
    have h1 : (50 : Int) ≥ 100 := h.1
    omega
  have hdelta : deltaRanges ⟨crypto, 100, 200⟩ 50 250 =
      [(50, 100), (200, 250)] := rfl
  have hm : (deltaRanges ⟨crypto, 100, 200⟩ 50 250).mapM
      (fun range => fetch crypto range.1 range.2) = Except.ok [l1, l2] := by
    rw [hdelta]
    simp only [List.mapM_cons, List.mapM_nil]
    rw [h1, h2]
    rfl
  rw [fetchCrypto_cache_some fetch crypto 50 250 st _ hcache,
    if_neg hcond, if_neg hcov, if_neg (deltaRanges_ne_nil hcov), hm, hdelta]
  refine ⟨rfl, rfl, ?_, strictSorted_dedup_sort _⟩
  have hmin : min (50 : Int) 100 = 50 := by decide
  have hmax : max (250 : Int) 200 = 250 := by decide
  rw [hmin, hmax]

/-- Claim C2 witness: the concrete cached state covering `[100, 200]` with
one stored sample, extended to `[50, 250]`, fetches exactly the two deltas
and ends covered `[50, 250]` with a strictly sorted series. -/
theorem fetchCrypto_two_delta_fetches_witness :
    cachedStateW.cache = some ⟨CryptoOption.BTC, 100, 200⟩ ∧
    ¬ cachedStateW.cryptoPrices.length = 0 ∧
    (fetchCrypto okFetchCrypto CryptoOption.BTC 50 250 cachedStateW).fetched =
      [(50, 100), (200, 250)] ∧
    (fetchCrypto okFetchCrypto CryptoOption.BTC 50 250 cachedStateW).state.cache =
      some ⟨CryptoOption.BTC, 50, 250⟩ ∧
    StrictSortedByT
      (fetchCrypto okFetchCrypto CryptoOption.BTC 50 250 cachedStateW).state.cryptoPrices :=
  have h := fetchCrypto_two_delta_fetches okFetchCrypto CryptoOption.BTC
    cachedStateW [⟨51, 5⟩] [⟨201, 5⟩] rfl (by decide) rfl rfl
  ⟨rfl, by decide, h.1, h.2.2.1, h.2.2.2⟩

/-- Claim C2 counterexample: a reachable coverage record `[100, 200]` whose
stored series is empty (produced by a successful fetch that returned no
samples) makes the code take the full-fetch branch instead: the request for
`[50, 250]` issues the single fetch `[(50, 250)]`, not the two delta fetches
the claim demands. -/
theorem fetchCrypto_two_delta_fetches_cex :
    (fetchCrypto okFetchCrypto CryptoOption.BTC 50 250 cachedEmptyStateW).fetched
      = [(50, 250)] ∧
    ¬ (fetchCrypto okFetchCrypto CryptoOption.BTC 50 250 cachedEmptyStateW).fetched
      = [(50, 100), (200, 250)] := by
  decide

/-- Claim C4: when the cached kind matches and the request is not covered,
a failure of the delta sub-range batch leaves the coverage state (cache
record and stored series) exactly as before, surfaces the crypto error
message, and a retry with the same requested interval recomputes exactly the
same missing sub-ranges. -/
theorem fetchCrypto_delta_failure_state_unchanged
    (fetch fetch2 : CryptoOption → Int → Int → Except String (List PricePoint))
    (crypto : CryptoOption) (tmin tmax : Int) (st : CryptoState)
    (cache : CryptoCache) (e : String)
    (hcache : st.cache = some cache) (hcc : cache.crypto = crypto)
    (hne : ¬ st.cryptoPrices.length = 0)
    (hncov : ¬ (tmin ≥ cache.min ∧ tmax ≤ cache.max))
    (hfail : (deltaRanges cache tmin tmax).mapM
      (fun range => fetch crypto range.1 range.2) = Except.error e) :
    (fetchCrypto fetch crypto tmin tmax st).state = st ∧
    (fetchCrypto fetch crypto tmin tmax st).error =
      some (cryptoErrorMsg crypto) ∧
    (fetchCrypto fetch crypto tmin tmax st).fetched =
      deltaRanges cache tmin tmax ∧
    (fetchCrypto fetch2 crypto tmin tmax
        (fetchCrypto fetch crypto tmin tmax st).state).fetched =
      (fetchCrypto fetch crypto tmin tmax st).fetched := by
  have hcond : ¬ (cache.crypto ≠ crypto ∨ st.cryptoPrices.length = 0) := by
    intro h
    rcases h with h | h
    · exact h hcc
    · exact hne h
  have hrun : fetchCrypto fetch crypto tmin tmax st =
      ⟨st, deltaRanges cache tmin tmax, some (cryptoErrorMsg crypto)⟩ := by
    rw [fetchCrypto_cache_some fetch crypto tmin tmax st cache hcache,
      if_neg hcond, if_neg hncov, if_neg (deltaRanges_ne_nil hncov), hfail]
  rw [hrun]
  refine ⟨rfl, rfl, rfl, ?_⟩
  rw [fetchCrypto_cache_some fetch2 crypto tmin tmax st cache hcache,
    if_neg hcond, if_neg hncov, if_neg (deltaRanges_ne_nil hncov)]
  rcases hm2 : (deltaRanges cache tmin tmax).mapM
      (fun range => fetch2 crypto range.1 range.2) with e2 | arrays
  · rw [hm2]
  · rw [hm2]

/-- Claim C4 witness: on the concrete cached state covering `[100, 200]`, a
failing delta batch for the request `[50, 250]` leaves the state unchanged,
surfaces the BTC error, and the retry recomputes the same two deltas. -/
theorem fetchCrypto_delta_failure_state_unchanged_witness :
    cachedStateW.cache = some ⟨CryptoOption.BTC, 100, 200⟩ ∧
    (deltaRanges ⟨CryptoOption.BTC, 100, 200⟩ 50 250).mapM
      (fun range => failFetchCrypto CryptoOption.BTC range.1 range.2) =
      Except.error ("boom") ∧
    (fetchCrypto failFetchCrypto CryptoOption.BTC 50 250 cachedStateW).state =
      cachedStateW ∧
    (fetchCrypto failFetchCrypto CryptoOption.BTC 50 250 cachedStateW).error =
      some (cryptoErrorMsg CryptoOption.BTC) ∧
    (fetchCrypto okFetchCrypto CryptoOption.BTC 50 250
        (fetchCrypto failFetchCrypto CryptoOption.BTC 50 250 cachedStateW).state).fetched =
      (fetchCrypto failFetchCrypto CryptoOption.BTC 50 250 cachedStateW).fetched :=
  have h := fetchCrypto_delta_failure_state_unchanged failFetchCrypto
    okFetchCrypto CryptoOption.BTC 50 250 cachedStateW
    ⟨CryptoOption.BTC, 100, 200⟩ ("boom") rfl rfl (by decide) (by decide) rfl
  ⟨rfl, rfl, h.1, h.2.1, h.2.2.2⟩

/-- Claim C5 (amended): after `fetchCrypto` succeeds for `[tmin, tmax]` and
the resulting stored series is non-empty, a second call for the same kind
and the same interval — or any sub-interval — performs zero fetches and
returns the coverage state unchanged. -/
theorem fetchCrypto_second_call_cache_hit
    (fetch fetch2 : CryptoOption → Int → Int → Except String (List PricePoint))
    (crypto : CryptoOption) (tmin tmax tmin2 tmax2 : Int) (st : CryptoState)
    (herr : (fetchCrypto fetch crypto tmin tmax st).error = none)
    (hne : ¬ (fetchCrypto fetch crypto tmin tmax st).state.cryptoPrices.length = 0)
    (hmin : tmin ≤ tmin2) (hmax : tmax2 ≤ tmax) :
    fetchCrypto fetch2 crypto tmin2 tmax2
        (fetchCrypto fetch crypto tmin tmax st).state =
      ⟨(fetchCrypto fetch crypto tmin tmax st).state, [], none⟩ := by
  obtain ⟨cache1, hc1, hcc1, hmin1, hmax1⟩ :=
    fetchCrypto_success_cache fetch crypto tmin tmax st herr
  have hcond : ¬ (cache1.crypto ≠ crypto ∨
      (fetchCrypto fetch crypto tmin tmax st).state.cryptoPrices.length = 0) := by
    intro h
    rcases h with h | h
    · exact h hcc1
    · exact hne h
  rw [fetchCrypto_cache_some fetch2 crypto tmin2 tmax2 _ cache1 hc1,
    if_neg hcond, if_pos ⟨by omega, by omega⟩]

/-- Claim C5 witness: a successful full fetch of `[0, 10]` stores one sample;
repeating the identical request performs zero fetches and leaves the state
unchanged. -/
theorem fetchCrypto_second_call_cache_hit_witness :
    (fetchCrypto okFetchCrypto CryptoOption.BTC 0 10 ⟨none, []⟩).error = none ∧
    ¬ (fetchCrypto okFetchCrypto CryptoOption.BTC 0 10
        ⟨none, []⟩).state.cryptoPrices.length = 0 ∧
    fetchCrypto okFetchCrypto CryptoOption.BTC 0 10
        (fetchCrypto okFetchCrypto CryptoOption.BTC 0 10 ⟨none, []⟩).state =
      ⟨(fetchCrypto okFetchCrypto CryptoOption.BTC 0 10 ⟨none, []⟩).state,
        [], none⟩ :=
  ⟨by decide, by decide,
    fetchCrypto_second_call_cache_hit okFetchCrypto okFetchCrypto
      CryptoOption.BTC 0 10 0 10 ⟨none, []⟩ (by decide) (by decide)
      (le_refl _) (le_refl _)⟩

/-- Claim C5 counterexample: when the successful first fetch returns an
empty series, the `cryptoPrices.length === 0` guard sends the second,
identical request down the full-fetch branch again: it issues the fetch
`[(0, 10)]` instead of the zero fetches the claim demands. -/
theorem fetchCrypto_second_call_cache_hit_cex :
    (fetchCrypto emptyFetchCrypto CryptoOption.BTC 0 10 ⟨none, []⟩).error
      = none ∧
    (fetchCrypto emptyFetchCrypto CryptoOption.BTC 0 10
        (fetchCrypto emptyFetchCrypto CryptoOption.BTC 0 10
          ⟨none, []⟩).state).fetched = [(0, 10)] := by
  decide

/-! ## Properties of the selection handler -/

/-- Claim C9: toggling a key whose series is already stored triggers no new
fetch — the store is consulted first and the stored series map is reused
unchanged. -/
theorem handleBetToggle_memoized
    (fetchPH : String → String → Nat → Except String PriceHistoryRec)
    (market : ParsedMarket) (type : BetType) (st : BetState)
    (h : List PricePoint)
    (hhist : st.priceHistories (generateBetKey market.id type) = some h) :
    (handleBetToggle fetchPH market type st).fetchedTokens = [] ∧
    (handleBetToggle fetchPH market type st).state.priceHistories =
      st.priceHistories := by
  have hcond : ¬ ((st.selectedBets (generateBetKey market.id type)).isNone ∧
      (st.priceHistories (generateBetKey market.id type)).isNone) := by
    intro hc
    rw [hhist] at hc
    exact absurd hc.2 (by simp)
  simp only [handleBetToggle]
  rw [if_neg hcond]
  exact ⟨rfl, rfl⟩

/-- Claim C9 witness: re-selecting `marketW`'s YES key when its history is
already stored performs zero fetches and leaves the store as it was. -/
theorem handleBetToggle_memoized_witness :
    storedBetState.priceHistories (generateBetKey marketW.id BetType.YES) =
      some [⟨10, 1⟩] ∧
    (handleBetToggle failFetchPH marketW BetType.YES
      storedBetState).fetchedTokens = [] ∧
    (handleBetToggle failFetchPH marketW BetType.YES
      storedBetState).state.priceHistories = storedBetState.priceHistories :=
  have h := handleBetToggle_memoized failFetchPH marketW BetType.YES
    storedBetState [⟨10, 1⟩] (by decide)
  ⟨by decide, h.1, h.2⟩

/-- Claim C7: a selection attempt (the key is not yet selected and has no
stored history) whose fetch fails leaves the selection map exactly as before
the attempt, leaves every stored series untouched, surfaces the error
message naming that market and side, and issued exactly the one fetch. -/
theorem handleBetToggle_failed_fetch_rollback
    (fetchPH : String → String → Nat → Except String PriceHistoryRec)
    (market : ParsedMarket) (type : BetType) (st : BetState) (e : String)
    (hsel : st.selectedBets (generateBetKey market.id type) = none)
    (hhist : st.priceHistories (generateBetKey market.id type) = none)
    (hfail : fetchPH (betTokenId market type) (toString market.startDate) 10 =
      Except.error e) :
    (handleBetToggle fetchPH market type st).state.selectedBets =
      st.selectedBets ∧
    (handleBetToggle fetchPH market type st).state.priceHistories =
      st.priceHistories ∧
    (handleBetToggle fetchPH market type st).state.error =
      some (betErrorMsg market.question type) ∧
    (handleBetToggle fetchPH market type st).fetchedTokens =
      [betTokenId market type] := by
  have hcond : (st.selectedBets (generateBetKey market.id type)).isNone ∧
      (st.priceHistories (generateBetKey market.id type)).isNone := by
    rw [hsel, hhist]
    exact ⟨rfl, rfl⟩
  simp only [handleBetToggle]
  rw [if_pos hcond, hfail]
  refine ⟨?_, rfl, rfl, rfl⟩
  funext k
  show (if k = generateBetKey market.id type then none
    else toggleBet market type (generateBetKey market.id type)
      (betTokenId market type) st.selectedBets k) = st.selectedBets k
  simp only [toggleBet]
  rw [hsel]
  by_cases hk : k = generateBetKey market.id type
  · rw [if_pos hk, hk, hsel]
  · rw [if_neg hk]
    dsimp only
    rw [if_neg hk]

/-- Claim C7 witness: selecting `marketW`'s YES side from the empty state
with a failing fetch rolls the selection back to empty, keeps the store
empty, and surfaces the message naming the market. -/
theorem handleBetToggle_failed_fetch_rollback_witness :
    emptyBetState.selectedBets (generateBetKey marketW.id BetType.YES) =
      none ∧
    emptyBetState.priceHistories (generateBetKey marketW.id BetType.YES) =
      none ∧
    (handleBetToggle failFetchPH marketW BetType.YES
      emptyBetState).state.selectedBets = emptyBetState.selectedBets ∧
    (handleBetToggle failFetchPH marketW BetType.YES
      emptyBetState).state.error =
      some (betErrorMsg marketW.question BetType.YES) ∧
    (handleBetToggle failFetchPH marketW BetType.YES
      emptyBetState).fetchedTokens = [betTokenId marketW BetType.YES] :=
  have h := handleBetToggle_failed_fetch_rollback failFetchPH marketW
    BetType.YES emptyBetState ("network down") rfl rfl rfl
  ⟨rfl, rfl, h.1, h.2.2.1, h.2.2.2⟩

/-! ## Properties of the aligner -/

lemma rowStep_fold (ph : String → Option (List PricePoint)) (ts : Int) :
    ∀ (keys : List String) (f : String → Option Rat) (s : Rat) (n : Nat),
      (keys.foldl (rowStep ph ts) (f, s, n)).2.1 =
        s + ((keys.map (fun k => (nearVal ph ts k).getD 0)).sum) ∧
      (keys.foldl (rowStep ph ts) (f, s, n)).2.2 =
        n + keys.countP (fun k => (nearVal ph ts k).isSome) := by
  intro keys
  induction keys with
  | nil =>
    intro f s n
    simp
  | cons k ks ih =>
    intro f s n
    rw [List.foldl_cons, List.map_cons, List.sum_cons, List.countP_cons]
    rcases hk : ph k with _ | hist
    · have hstep : rowStep ph ts (f, s, n) k = (f, s, n) := by
        simp [rowStep, hk]
      have hnv : nearVal ph ts k = none := by
        simp [nearVal, hk]
      rw [hstep, hnv]
      obtain ⟨ih1, ih2⟩ := ih f s n
      constructor
      · rw [ih1]
        simp
      · rw [ih2]
        simp
    · rcases hn : findNearestPrice hist ts with _ | price
      · have hstep : rowStep ph ts (f, s, n) k = (f, s, n) := by
          simp [rowStep, hk, hn]
        have hnv : nearVal ph ts k = none := by
          simp [nearVal, hk, hn]
        rw [hstep, hnv]
        obtain ⟨ih1, ih2⟩ := ih f s n
        constructor
        · rw [ih1]
          simp
        · rw [ih2]
          simp
      · have hstep : rowStep ph ts (f, s, n) k =
            (fun k2 => if k2 = k then some price else f k2,
              s + price, n + 1) := by
          simp [rowStep, hk, hn]
        have hnv : nearVal ph ts k = some price := by
          simp [nearVal, hk, hn]
        rw [hstep, hnv]
        obtain ⟨ih1, ih2⟩ :=
          ih (fun k2 => if k2 = k then some price else f k2) (s + price) (n + 1)
        constructor
        · rw [ih1]
          simp only [Option.getD_some]
          ring
        · rw [ih2]
          simp only [Option.isSome_some, if_pos]
          omega

lemma buildRow_sum_spec (betKeys : List String)
    (ph : String → Option (List PricePoint)) (crypto : CryptoOption)
    (cps : List PricePoint) (ts : Int) :
    ((buildRow betKeys ph crypto cps ts).sum.isSome ↔
      1 < betKeys.length ∧ ∀ k ∈ betKeys, (nearVal ph ts k).isSome) ∧
    (∀ s, (buildRow betKeys ph crypto cps ts).sum = some s →
      s = (betKeys.map (fun k => (nearVal ph ts k).getD 0)).sum ∧
      ∀ k ∈ betKeys, (nearVal ph ts k).isSome) := by
  have hfold := rowStep_fold ph ts betKeys (fun _ => none) 0 0
  have hcount : (betKeys.foldl (rowStep ph ts) (fun _ => none, 0, 0)).2.2 =
      betKeys.countP (fun k => (nearVal ph ts k).isSome) := by
    rw [hfold.2]
    omega
  have hval : (betKeys.foldl (rowStep ph ts) (fun _ => none, 0, 0)).2.1 =
      (betKeys.map (fun k => (nearVal ph ts k).getD 0)).sum := by
    rw [hfold.1]
    ring
  have hsum_def : (buildRow betKeys ph crypto cps ts).sum =
      if betKeys.length > 1 ∧
          (betKeys.foldl (rowStep ph ts) (fun _ => none, 0, 0)).2.2 =
            betKeys.length
      then some (betKeys.foldl (rowStep ph ts) (fun _ => none, 0, 0)).2.1
      else none := rfl
  rw [hsum_def, hcount, hval]
  by_cases hc : betKeys.length > 1 ∧
      betKeys.countP (fun k => (nearVal ph ts k).isSome) = betKeys.length
  · rw [if_pos hc]
    refine ⟨?_, ?_⟩
    · simp only [Option.isSome_some, true_iff]
      exact ⟨hc.1, List.countP_eq_length.mp hc.2⟩
    · intro s hs
      have hsv : s = (betKeys.map (fun k => (nearVal ph ts k).getD 0)).sum :=
        (Option.some.injEq _ _ ▸ hs).symm
      exact ⟨hsv, List.countP_eq_length.mp hc.2⟩
  · rw [if_neg hc]
    refine ⟨?_, ?_⟩
    · simp only [Option.isSome_none]
      constructor
      · intro hfalse
        exact absurd hfalse (by simp)
      · intro hall
        exact absurd ⟨hall.1, List.countP_eq_length.mpr hall.2⟩ hc
    · intro s hs
      exact absurd hs (by simp)

/-- Claim C3: in every row built by `chartData`, the derived `sum` entry is
present exactly when at least two primary keys are selected and every
selected key yields a nearest value at that row's timestamp; when present it
equals the sum of those nearest values — so no partial sum over a strict
subset of the selected keys is ever recorded. -/
theorem chartData_sum_gating (betKeys : List String)
    (ph : String → Option (List PricePoint)) (crypto : CryptoOption)
    (cps : List PricePoint) :
    ∀ row ∈ chartData betKeys ph crypto cps,
      (row.sum.isSome ↔
        1 < betKeys.length ∧
        ∀ k ∈ betKeys, (nearVal ph row.timestamp k).isSome) ∧
      (∀ s, row.sum = some s →
        s = (betKeys.map (fun k => (nearVal ph row.timestamp k).getD 0)).sum ∧
        ∀ k ∈ betKeys, (nearVal ph row.timestamp k).isSome) := by
  intro row hrow
  rw [chartData] at hrow
  obtain ⟨ts, _, rfl⟩ := List.mem_map.mp hrow
  exact buildRow_sum_spec betKeys ph crypto cps ts

/-- Claim C3 witness: on the spec's example series the row at timestamp 10
belongs to `chartData` and its `sum` presence matches the gating property. -/
theorem chartData_sum_gating_witness :
    buildRow keysW phW CryptoOption.NONE [] 10 ∈
      chartData keysW phW CryptoOption.NONE [] ∧
    ((buildRow keysW phW CryptoOption.NONE [] 10).sum.isSome ↔
      1 < keysW.length ∧
      ∀ k ∈ keysW,
        (nearVal phW
          (buildRow keysW phW CryptoOption.NONE [] 10).timestamp k).isSome) := by
  have hts : chartTimestamps keysW phW CryptoOption.NONE [] = [10, 20] := by
    decide
  have hcd : chartData keysW phW CryptoOption.NONE [] =
      [buildRow keysW phW CryptoOption.NONE [] 10,
       buildRow keysW phW CryptoOption.NONE [] 20] := by
    rw [chartData, hts]
    rfl
  have hmem : buildRow keysW phW CryptoOption.NONE [] 10 ∈
      chartData keysW phW CryptoOption.NONE [] := by
    rw [hcd]
    exact List.mem_cons_self _ _
  exact ⟨hmem, (chartData_sum_gating keysW phW CryptoOption.NONE [] _ hmem).1⟩

/-- Claim C8 counterexample: with A = `{10: 0.3, 20: 0.4}`, B = `{10: 0.6}`
and the primary 270-second tolerance, B's only sample (at `t = 10`) is
within tolerance of timestamp 20 (delta 10 ≤ 270), so the row at timestamp
20 carries `sum = 1.0`; the claim's "row at timestamp 20 has no sum" is
false on the code. -/
theorem chartData_spec_example_cex :
    ¬ (∀ row ∈ chartData keysW phW CryptoOption.NONE [],
        row.timestamp = 20 → row.sum = none) := by
  intro hclaim
  have hts : chartTimestamps keysW phW CryptoOption.NONE [] = [10, 20] := by
    decide
  have hcd : chartData keysW phW CryptoOption.NONE [] =
      [buildRow keysW phW CryptoOption.NONE [] 10,
       buildRow keysW phW CryptoOption.NONE [] 20] := by
    rw [chartData, hts]
    rfl
  have hmem : buildRow keysW phW CryptoOption.NONE [] 20 ∈
      chartData keysW phW CryptoOption.NONE [] := by
    rw [hcd]
    exact List.mem_cons_of_mem _ (List.mem_cons_self _ _)
  have h20 := hclaim _ hmem rfl
  have hval : (buildRow keysW phW CryptoOption.NONE [] 20).sum = some 1 := by
    with_unfolding_all decide
  rw [hval] at h20
  exact absurd h20 (by simp)

/-- Claim C8 (amended): with A = `{10: 0.3, 20: 0.4}`, B = `{10: 0.6}` and
the primary 270-second tolerance, the built rows are exactly: timestamp 10
with `sum = 0.9`, and timestamp 20 with `sum = 1.0` (B's sample at `t = 10`
is within the tolerance of timestamp 20, so B counts as present there). -/
theorem chartData_spec_example_amended :
    (chartData keysW phW CryptoOption.NONE []).map
      (fun row => (row.timestamp, row.sum)) =
    [(10, some (9 / 10 : Rat)), (20, some 1)] := by
  with_unfolding_all decide
